import Mathlib

/-!
Verification development for the `bnk-ai` SSE streaming engine.

The TypeScript sources are shallowly embedded below:
* `src/src/streaming-engine.ts` — `isDebugEnabled`, `createSSEStream`
* `src/unnamed/part_001`        — the revision with `handlePossibleErrorJSON`
  (embedded as the `...E` family of definitions)

Text is modelled as `List Char`.  The JavaScript string primitives used by the
engine (`trim`, `split`, `startsWith`, the `TextDecoder` incremental UTF-8
decoder and `JSON.parse`) are modelled explicitly, from their standard
semantics, as executable functions.
-/

set_option linter.unusedVariables false

namespace SSE

/-- Text as the engine sees it: a list of characters.  (JavaScript strings are
sequences of UTF-16 code units; for the operations the engine performs the
code-point view coincides except for lone surrogates, which `List Char` cannot
represent and which are noted where relevant.) -/
abbrev Str := List Char

/-- The characters removed by JavaScript `String.prototype.trim` — the same
set matched by the regular-expression class of white-space used in
`/^data:\s*/` (ECMAScript WhiteSpace ∪ LineTerminator). -/
def isJsSpace (c : Char) : Bool :=
  c == ' ' || c == '\t' || c == '\n' || c == '\r' ||
  c.toNat == 0x0B || c.toNat == 0x0C || c.toNat == 0xA0 || c.toNat == 0x1680 ||
  (0x2000 ≤ c.toNat && c.toNat ≤ 0x200A) || c.toNat == 0x2028 || c.toNat == 0x2029 ||
  c.toNat == 0x202F || c.toNat == 0x205F || c.toNat == 0x3000 || c.toNat == 0xFEFF

/-- JavaScript `s.trim()`. -/
def trimStr (s : Str) : Str :=
  ((s.dropWhile isJsSpace).reverse.dropWhile isJsSpace).reverse

/-- Boolean "is a prefix of" on character lists (JavaScript `startsWith`). -/
def pfx : Str → Str → Bool
  | [], _ => true
  | _ :: _, [] => false
  | a :: as, b :: bs => a == b && pfx as bs

theorem pfx_iff : ∀ d s : Str, pfx d s = true ↔ ∃ r, s = d ++ r := by
  intro d
  induction d with
  | nil => intro s; simp [pfx]
  | cons a as ih =>
    intro s
    cases s with
    | nil => simp [pfx]
    | cons b bs =>
      simp only [pfx, Bool.and_eq_true, beq_iff_eq, ih]
      constructor
      · rintro ⟨rfl, r, rfl⟩; exact ⟨r, rfl⟩
      · rintro ⟨r, hr⟩
        injection hr with h1 h2
        exact ⟨h1.symm, r, h2⟩

theorem pfx_length_le {d s : Str} (h : pfx d s = true) : d.length ≤ s.length := by
  obtain ⟨r, rfl⟩ := (pfx_iff d s).mp h
  simp

theorem pfx_append {d s : Str} (t : Str) (h : pfx d s = true) : pfx d (s ++ t) = true := by
  obtain ⟨r, rfl⟩ := (pfx_iff d s).mp h
  exact (pfx_iff d _).mpr ⟨r ++ t, by simp⟩

theorem pfx_append_eq {d : Str} :
    ∀ {s : Str} (t : Str), d.length ≤ s.length → pfx d (s ++ t) = pfx d s := by
  induction d with
  | nil => intro s t _; simp [pfx]
  | cons a as ih =>
    intro s t h
    cases s with
    | nil => simp at h
    | cons b bs =>
      have h' : as.length ≤ bs.length := Nat.succ_le_succ_iff.mp (by simpa using h)
      show (a == b && pfx as (bs ++ t)) = (a == b && pfx as bs)
      rw [ih t h']

/-- `d` occurs somewhere inside `s` as a contiguous substring. -/
def occursIn (d s : Str) : Prop := ∃ x y, s = x ++ d ++ y

theorem occursIn_nil_iff {d : Str} : occursIn d ([] : Str) ↔ d = [] := by
  constructor
  · rintro ⟨x, y, h⟩
    rcases List.append_eq_nil.mp h.symm with ⟨h1, h2⟩
    exact (List.append_eq_nil.mp h1).2
  · rintro rfl; exact ⟨[], [], rfl⟩

theorem occursIn_cons_iff {d : Str} {c : Char} {s : Str} :
    occursIn d (c :: s) ↔ pfx d (c :: s) = true ∨ occursIn d s := by
  constructor
  · rintro ⟨x, y, h⟩
    cases x with
    | nil =>
      left
      exact (pfx_iff d (c :: s)).mpr ⟨y, by simpa using h⟩
    | cons c' x' =>
      right
      injection h with h1 h2
      exact ⟨x', y, h2⟩
  · rintro (h | ⟨x, y, h⟩)
    · obtain ⟨r, hr⟩ := (pfx_iff d (c :: s)).mp h
      exact ⟨[], r, by simpa using hr⟩
    · exact ⟨c :: x, y, by simp [h]⟩

/-- Index of the leftmost occurrence of `d` in `s` (JavaScript `indexOf`). -/
def findSub? (d : Str) : Str → Option Nat
  | [] => if pfx d [] then some 0 else none
  | c :: s => if pfx d (c :: s) then some 0 else (findSub? d s).map (· + 1)

theorem findSub?_nil {d : Str} (hd : d ≠ []) : findSub? d [] = none := by
  cases d with
  | nil => exact absurd rfl hd
  | cons a as => simp [findSub?, pfx]

theorem findSub?_eq_none_iff {d : Str} : ∀ {s : Str}, findSub? d s = none ↔ ¬ occursIn d s := by
  intro s
  induction s with
  | nil =>
    rw [occursIn_nil_iff]
    cases d with
    | nil => simp [findSub?, pfx]
    | cons a as => simp [findSub?, pfx]
  | cons c s ih =>
    rw [occursIn_cons_iff]
    by_cases h : pfx d (c :: s) = true
    · simp [findSub?, h]
    · simp [findSub?, h, ih]

theorem findSub?_bound {d : Str} :
    ∀ {s : Str} {i : Nat}, findSub? d s = some i → i + d.length ≤ s.length := by
  intro s
  induction s with
  | nil =>
    intro i h
    cases d with
    | nil => simp [findSub?, pfx] at h; omega
    | cons a as => simp [findSub?, pfx] at h
  | cons c s ih =>
    intro i h
    simp only [findSub?] at h
    by_cases hp : pfx d (c :: s) = true
    · rw [if_pos hp] at h
      injection h with h'
      subst h'
      simpa using pfx_length_le hp
    · rw [if_neg hp] at h
      rcases Option.map_eq_some.mp h with ⟨j, hj, rfl⟩
      have := ih hj
      simp only [List.length_cons]
      omega

theorem findSub?_append {d : Str} (t : Str) :
    ∀ {s : Str} {i : Nat}, findSub? d s = some i → findSub? d (s ++ t) = some i := by
  intro s
  induction s with
  | nil =>
    intro i h
    cases d with
    | nil =>
      simp [findSub?, pfx] at h
      subst h
      cases t with
      | nil => simp [findSub?, pfx]
      | cons c ts => simp [findSub?, pfx]
    | cons a as => simp [findSub?, pfx] at h
  | cons c s ih =>
    intro i h
    simp only [findSub?] at h
    by_cases hp : pfx d (c :: s) = true
    · rw [if_pos hp] at h
      injection h with h'
      subst h'
      have hp' : pfx d (c :: (s ++ t)) = true := by
        have := pfx_append t hp
        simpa using this
      show findSub? d (c :: (s ++ t)) = some 0
      simp [findSub?, hp']
    · rw [if_neg hp] at h
      rcases Option.map_eq_some.mp h with ⟨j, hj, rfl⟩
      have hlen : d.length ≤ (c :: s).length := by
        have := findSub?_bound hj
        simp only [List.length_cons]
        omega
      have hp' : pfx d (c :: (s ++ t)) = false := by
        have := pfx_append_eq (d := d) (s := c :: s) t hlen
        simp only [List.cons_append] at this
        rw [this]
        simpa using hp
      show findSub? d (c :: (s ++ t)) = some (j + 1)
      simp only [findSub?, hp']
      rw [if_neg (by simp [hp'])]
      rw [ih hj]
      rfl

theorem findSub?_decomp {d : Str} :
    ∀ {s : Str} {i : Nat}, findSub? d s = some i →
      s = s.take i ++ d ++ s.drop (i + d.length) := by
  intro s
  induction s with
  | nil =>
    intro i h
    cases d with
    | nil => simp
    | cons a as => simp [findSub?, pfx] at h
  | cons c s ih =>
    intro i h
    simp only [findSub?] at h
    by_cases hp : pfx d (c :: s) = true
    · rw [if_pos hp] at h
      injection h with h'
      subst h'
      obtain ⟨r, hr⟩ := (pfx_iff d (c :: s)).mp hp
      conv_lhs => rw [hr]
      have : (c :: s).drop (0 + d.length) = r := by
        rw [hr, Nat.zero_add]
        exact List.drop_left d r
      rw [this]
      simp
    · rw [if_neg hp] at h
      rcases Option.map_eq_some.mp h with ⟨j, hj, rfl⟩
      have := ih hj
      calc c :: s = c :: (s.take j ++ d ++ s.drop (j + d.length)) := by rw [← this]
        _ = (c :: s).take (j + 1) ++ d ++ (c :: s).drop (j + 1 + d.length) := by
              simp [List.take_succ_cons, Nat.add_right_comm j 1 d.length]

/-- Fuel-driven leftmost split (sufficient fuel: `s.length`). -/
def splitFuel (d : Str) : Nat → Str → List Str
  | 0, s => [s]
  | f + 1, s =>
    match findSub? d s with
    | none => [s]
    | some i => s.take i :: splitFuel d f (s.drop (i + d.length))

theorem splitFuel_congr {d : Str} (hd : d ≠ []) :
    ∀ {f g : Nat} {s : Str}, s.length ≤ f → s.length ≤ g → splitFuel d f s = splitFuel d g s := by
  intro f
  induction f with
  | zero =>
    intro g s hf hg
    have hs : s = [] := List.length_eq_zero.mp (Nat.le_zero.mp hf)
    subst hs
    cases g with
    | zero => rfl
    | succ g => simp [splitFuel, findSub?_nil hd]
  | succ f ihf =>
    intro g s hf hg
    cases g with
    | zero =>
      have hs : s = [] := List.length_eq_zero.mp (Nat.le_zero.mp hg)
      subst hs
      simp [splitFuel, findSub?_nil hd]
    | succ g =>
      simp only [splitFuel]
      cases hfind : findSub? d s with
      | none => rfl
      | some i =>
        have hb := findSub?_bound hfind
        have hdlen : 1 ≤ d.length := by
          cases d with
          | nil => exact absurd rfl hd
          | cons a as => simp
        have hlen : (s.drop (i + d.length)).length ≤ f := by
          rw [List.length_drop]
          omega
        have hlen' : (s.drop (i + d.length)).length ≤ g := by
          rw [List.length_drop]
          omega
        show s.take i :: splitFuel d f (s.drop (i + d.length)) =
            s.take i :: splitFuel d g (s.drop (i + d.length))
        rw [ihf hlen hlen']

/-- JavaScript `s.split(d)`.  For a non-empty separator this is the leftmost
greedy split; `s.split("")` yields the list of single characters (and
`"".split("")` is `[]`). -/
def jsSplit (d s : Str) : List Str :=
  if d.isEmpty then s.map (fun c => [c]) else splitFuel d s.length s

theorem jsSplit_empty_d (s : Str) : jsSplit [] s = s.map (fun c => [c]) := by
  simp [jsSplit]

theorem jsSplit_eq {d : Str} (hd : d ≠ []) (s : Str) :
    jsSplit d s = match findSub? d s with
      | none => [s]
      | some i => s.take i :: jsSplit d (s.drop (i + d.length)) := by
  have hne : d.isEmpty = false := by
    cases d with
    | nil => exact absurd rfl hd
    | cons a as => rfl
  simp only [jsSplit, hne, Bool.false_eq_true, if_false]
  have h1 : splitFuel d s.length s = splitFuel d (s.length + 1) s :=
    splitFuel_congr hd (Nat.le_refl _) (Nat.le_succ _)
  rw [h1]
  simp only [splitFuel]
  cases hfind : findSub? d s with
  | none => rfl
  | some i =>
    have hb := findSub?_bound hfind
    have heq : splitFuel d s.length (s.drop (i + d.length)) =
        splitFuel d (s.drop (i + d.length)).length (s.drop (i + d.length)) := by
      apply splitFuel_congr hd
      · rw [List.length_drop]; omega
      · exact Nat.le_refl _
    show s.take i :: splitFuel d s.length (s.drop (i + d.length)) =
        s.take i :: splitFuel d (s.drop (i + d.length)).length (s.drop (i + d.length))
    rw [heq]

theorem jsSplit_ne_nil {d : Str} (hd : d ≠ []) (s : Str) : jsSplit d s ≠ [] := by
  rw [jsSplit_eq hd]
  cases findSub? d s <;> simp

theorem jsSplit_getLast_no_occur {d : Str} (hd : d ≠ []) (s : Str) :
    ¬ occursIn d ((jsSplit d s).getLast?.getD []) := by
  have main : ∀ n, ∀ s : Str, s.length ≤ n → ¬ occursIn d ((jsSplit d s).getLast?.getD []) := by
    intro n
    induction n with
    | zero =>
      intro s hs
      have hs' : s = [] := List.length_eq_zero.mp (Nat.le_zero.mp hs)
      subst hs'
      rw [jsSplit_eq hd, findSub?_nil hd]
      simp only [List.getLast?_singleton, Option.getD_some]
      rw [occursIn_nil_iff]
      exact hd
    | succ n ih =>
      intro s hs
      rw [jsSplit_eq hd]
      cases hfind : findSub? d s with
      | none =>
        simp only [List.getLast?_singleton, Option.getD_some]
        exact findSub?_eq_none_iff.mp hfind
      | some i =>
        have hb := findSub?_bound hfind
        have hdlen : 1 ≤ d.length := by
          cases d with
          | nil => exact absurd rfl hd
          | cons a as => simp
        have hrest : jsSplit d (s.drop (i + d.length)) ≠ [] := jsSplit_ne_nil hd _
        have : (s.take i :: jsSplit d (s.drop (i + d.length))).getLast? =
            (jsSplit d (s.drop (i + d.length))).getLast? := by
          have : s.take i :: jsSplit d (s.drop (i + d.length)) =
              [s.take i] ++ jsSplit d (s.drop (i + d.length)) := by simp
          rw [this, List.getLast?_append_of_ne_nil _ hrest]
        rw [this]
        apply ih
        rw [List.length_drop]
        omega
  exact main s.length s (Nat.le_refl _)

theorem map_single_getLast_ne_nil : ∀ {s : Str}, s ≠ [] →
    ((s.map (fun c => [c])).getLast?.getD []) ≠ [] := by
  intro s
  induction s with
  | nil => intro h; exact absurd rfl h
  | cons c s ih =>
    intro _
    cases s with
    | nil => simp
    | cons c2 s2 =>
      have h2 : (c2 :: s2).map (fun c => [c]) ≠ [] := by simp
      have : ((c :: c2 :: s2).map (fun c => [c])).getLast? =
          ((c2 :: s2).map (fun c => [c])).getLast? := by
        have : (c :: c2 :: s2).map (fun c => [c]) =
            [[c]] ++ (c2 :: s2).map (fun c => [c]) := by simp
        rw [this, List.getLast?_append_of_ne_nil _ h2]
      rw [this]
      exact ih (by simp)

/-- Key compositionality of leftmost splitting: splitting `s ++ t` is
splitting `s`, keeping all complete fragments, and re-splitting the trailing
fragment together with `t`.  This is exactly the engine's buffering discipline
(`buffer = events.pop()`), so it yields chunk-boundary invariance. -/
theorem jsSplit_append (d : Str) : ∀ s t : Str,
    jsSplit d (s ++ t) =
      (jsSplit d s).dropLast ++ jsSplit d ((jsSplit d s).getLast?.getD [] ++ t) := by
  by_cases hd : d = []
  · subst hd
    intro s t
    induction s with
    | nil => simp [jsSplit_empty_d]
    | cons c s ih =>
      cases s with
      | nil => simp [jsSplit_empty_d]
      | cons c2 s2 =>
        have h2 : (c2 :: s2).map (fun c => [c]) ≠ [] := by simp
        have hlast : ((c :: c2 :: s2).map (fun c => [c])).getLast? =
            ((c2 :: s2).map (fun c => [c])).getLast? := by
          have hsplit : (c :: c2 :: s2).map (fun c => [c]) =
              [[c]] ++ (c2 :: s2).map (fun c => [c]) := by simp
          rw [hsplit, List.getLast?_append_of_ne_nil _ h2]
        have hdrop : ((c :: c2 :: s2).map (fun c => [c])).dropLast =
            [c] :: ((c2 :: s2).map (fun c => [c])).dropLast := by
          simp [List.dropLast]
        calc jsSplit [] ((c :: c2 :: s2) ++ t)
            = [c] :: jsSplit [] ((c2 :: s2) ++ t) := by simp [jsSplit_empty_d]
          _ = [c] :: ((jsSplit [] (c2 :: s2)).dropLast ++
                jsSplit [] ((jsSplit [] (c2 :: s2)).getLast?.getD [] ++ t)) := by rw [ih]
          _ = (jsSplit [] (c :: c2 :: s2)).dropLast ++
                jsSplit [] ((jsSplit [] (c :: c2 :: s2)).getLast?.getD [] ++ t) := by
              simp only [jsSplit_empty_d, hlast, hdrop]
              simp
  · have main : ∀ n, ∀ s t : Str, s.length ≤ n →
        jsSplit d (s ++ t) =
          (jsSplit d s).dropLast ++ jsSplit d ((jsSplit d s).getLast?.getD [] ++ t) := by
      intro n
      induction n with
      | zero =>
        intro s t hs
        have hs' : s = [] := List.length_eq_zero.mp (Nat.le_zero.mp hs)
        subst hs'
        rw [jsSplit_eq hd ([] : Str), findSub?_nil hd]
        simp
      | succ n ih =>
        intro s t hs
        cases hfind : findSub? d s with
        | none =>
          rw [jsSplit_eq hd s, hfind]
          simp
        | some i =>
          have hb := findSub?_bound hfind
          have hdlen : 1 ≤ d.length := by
            cases d with
            | nil => exact absurd rfl hd
            | cons a as => simp
          have hfind' : findSub? d (s ++ t) = some i := findSub?_append t hfind
          have htake : (s ++ t).take i = s.take i :=
            List.take_append_of_le_length (by omega)
          have hdrop2 : (s ++ t).drop (i + d.length) = s.drop (i + d.length) ++ t :=
            List.drop_append_of_le_length hb
          have hrest_ne : jsSplit d (s.drop (i + d.length)) ≠ [] := jsSplit_ne_nil hd _
          have hlast : (s.take i :: jsSplit d (s.drop (i + d.length))).getLast? =
              (jsSplit d (s.drop (i + d.length))).getLast? := by
            have hsplit : s.take i :: jsSplit d (s.drop (i + d.length)) =
                [s.take i] ++ jsSplit d (s.drop (i + d.length)) := by simp
            rw [hsplit, List.getLast?_append_of_ne_nil _ hrest_ne]
          have hdl : (s.take i :: jsSplit d (s.drop (i + d.length))).dropLast =
              s.take i :: (jsSplit d (s.drop (i + d.length))).dropLast := by
            cases hrs : jsSplit d (s.drop (i + d.length)) with
            | nil => exact absurd hrs hrest_ne
            | cons p ps => simp [List.dropLast]
          have hlen2 : (s.drop (i + d.length)).length ≤ n := by
            rw [List.length_drop]
            omega
          calc jsSplit d (s ++ t)
              = (s ++ t).take i :: jsSplit d ((s ++ t).drop (i + d.length)) := by
                rw [jsSplit_eq hd (s ++ t), hfind']
            _ = s.take i :: jsSplit d (s.drop (i + d.length) ++ t) := by
                rw [htake, hdrop2]
            _ = s.take i :: ((jsSplit d (s.drop (i + d.length))).dropLast ++
                  jsSplit d ((jsSplit d (s.drop (i + d.length))).getLast?.getD [] ++ t)) := by
                rw [ih _ t hlen2]
            _ = (jsSplit d s).dropLast ++
                  jsSplit d ((jsSplit d s).getLast?.getD [] ++ t) := by
                rw [jsSplit_eq hd s, hfind, hdl, hlast]
                simp
    intro s t
    exact main s.length s t (Nat.le_refl _)

theorem jsSplit_empty_d_last_nil : ∀ {s : Str},
    (jsSplit [] s).getLast?.getD [] = [] → s = [] := by
  intro s h
  by_contra hne
  exact map_single_getLast_ne_nil hne (by simpa [jsSplit_empty_d] using h)

/-- The trailing fragment of a split of `s ++ t` can be computed from the
trailing fragment of the split of `s`. -/
theorem jsSplit_last_append (d : Str) (s t : Str) :
    (jsSplit d (s ++ t)).getLast?.getD [] =
      (jsSplit d ((jsSplit d s).getLast?.getD [] ++ t)).getLast?.getD [] := by
  rw [jsSplit_append d s t]
  by_cases hY : jsSplit d ((jsSplit d s).getLast?.getD [] ++ t) = []
  · by_cases hd : d = []
    · subst hd
      have hnil : (jsSplit [] s).getLast?.getD [] ++ t = [] := by
        by_contra hne
        have : jsSplit [] ((jsSplit [] s).getLast?.getD [] ++ t) ≠ [] := by
          rw [jsSplit_empty_d]
          cases hc : (jsSplit [] s).getLast?.getD [] ++ t with
          | nil => exact absurd hc hne
          | cons a as => simp
        exact this hY
      rcases List.append_eq_nil.mp hnil with ⟨h1, h2⟩
      have hs : s = [] := jsSplit_empty_d_last_nil h1
      subst hs h2
      simp [jsSplit_empty_d]
    · exact absurd hY (jsSplit_ne_nil hd _)
  · rw [List.getLast?_append_of_ne_nil _ hY]

/-! ### The incremental UTF-8 decoder (`TextDecoder` with `stream: true`)

Modelled after the WHATWG Encoding Standard's UTF-8 decoder state machine.
The engine constructs the decoder once and feeds every received byte chunk
through it with `stream: true`, so the state machine simply continues across
chunk boundaries; the engine never issues a final flush, so a trailing
incomplete sequence is silently dropped (faithful to the source).  Invalid
bytes emit U+FFFD with the standard's resynchronisation rule. -/

structure DecoderState where
  codePoint : Nat
  bytesNeeded : Nat
  bytesSeen : Nat
  lowerBoundary : Nat
  upperBoundary : Nat
  deriving Repr, DecidableEq

def initDecoder : DecoderState := ⟨0, 0, 0, 0x80, 0xBF⟩

def replacementChar : Char := Char.ofNat 0xFFFD

/-- One step of the decoder from the idle state (no sequence in progress). -/
def utf8Start (b : Nat) : DecoderState × List Char :=
  if b ≤ 0x7F then (initDecoder, [Char.ofNat b])
  else if 0xC2 ≤ b ∧ b ≤ 0xDF then
    ({ codePoint := b % 0x20, bytesNeeded := 1, bytesSeen := 0,
       lowerBoundary := 0x80, upperBoundary := 0xBF }, [])
  else if 0xE0 ≤ b ∧ b ≤ 0xEF then
    ({ codePoint := b % 0x10, bytesNeeded := 2, bytesSeen := 0,
       lowerBoundary := if b = 0xE0 then 0xA0 else 0x80,
       upperBoundary := if b = 0xED then 0x9F else 0xBF }, [])
  else if 0xF0 ≤ b ∧ b ≤ 0xF4 then
    ({ codePoint := b % 0x8, bytesNeeded := 3, bytesSeen := 0,
       lowerBoundary := if b = 0xF0 then 0x90 else 0x80,
       upperBoundary := if b = 0xF4 then 0x8F else 0xBF }, [])
  else (initDecoder, [replacementChar])

/-- One byte through the decoder (WHATWG UTF-8 decoder handler). -/
def utf8Step (st : DecoderState) (b : Nat) : DecoderState × List Char :=
  if st.bytesNeeded = 0 then utf8Start b
  else if st.lowerBoundary ≤ b ∧ b ≤ st.upperBoundary then
    let cp := st.codePoint * 0x40 + b % 0x40
    if st.bytesSeen + 1 = st.bytesNeeded then (initDecoder, [Char.ofNat cp])
    else ({ codePoint := cp, bytesNeeded := st.bytesNeeded, bytesSeen := st.bytesSeen + 1,
            lowerBoundary := 0x80, upperBoundary := 0xBF }, [])
  else
    -- invalid continuation byte: emit U+FFFD and reprocess the byte idle
    let p := utf8Start b
    (p.1, replacementChar :: p.2)

/-- Feed a whole byte chunk through the decoder, collecting the output text. -/
def decodeChunk (dec : DecoderState) (bytes : List Nat) : DecoderState × Str :=
  bytes.foldl (fun p b => ((utf8Step p.1 b).1, p.2 ++ (utf8Step p.1 b).2)) (dec, [])

theorem decodeChunk_nil (dec : DecoderState) : decodeChunk dec [] = (dec, []) := rfl

theorem decodeChunk_acc (bytes : List Nat) :
    ∀ (dec : DecoderState) (t : Str),
      bytes.foldl (fun p b => ((utf8Step p.1 b).1, p.2 ++ (utf8Step p.1 b).2)) (dec, t) =
        ((decodeChunk dec bytes).1, t ++ (decodeChunk dec bytes).2) := by
  induction bytes with
  | nil => intro dec t; simp [decodeChunk]
  | cons b bs ih =>
    intro dec t
    simp only [List.foldl_cons, decodeChunk, List.nil_append]
    rw [ih, ih ((utf8Step dec b).1) ((utf8Step dec b).2)]
    simp [List.append_assoc]

theorem decodeChunk_append (dec : DecoderState) (x y : List Nat) :
    decodeChunk dec (x ++ y) =
      ((decodeChunk (decodeChunk dec x).1 y).1,
        (decodeChunk dec x).2 ++ (decodeChunk (decodeChunk dec x).1 y).2) := by
  simp only [decodeChunk, List.foldl_append]
  have h1 := decodeChunk_acc x dec []
  simp only [decodeChunk] at h1
  rw [h1]
  exact decodeChunk_acc y _ _

/-! ### A model of `JSON.parse`, used by `handlePossibleErrorJSON` (part_001)

Numbers are kept as their raw token; the only use the sniffer makes of a
number is JavaScript truthiness, modelled as "some mantissa digit is
non-zero" (this ignores double-precision underflow of astronomically small
exponents, which cannot change any claim settled here).  Lone `\uXXXX`
surrogates, which a JavaScript string can hold but `List Char` cannot, decode
to U+FFFD; valid surrogate pairs combine as in JavaScript. -/

inductive Json where
  | null
  | bool (b : Bool)
  | num (raw : Str)
  | str (s : Str)
  | arr (elems : List Json)
  | obj (fields : List (Str × Json))

/-- JSON insignificant whitespace (space, tab, line feed, carriage return). -/
def skipJws (s : Str) : Str :=
  s.dropWhile (fun c => c == ' ' || c == '\t' || c == '\n' || c == '\r')

def isDigit (c : Char) : Bool := '0' ≤ c && c ≤ '9'

def hexVal? (c : Char) : Option Nat :=
  if '0' ≤ c ∧ c ≤ '9' then some (c.toNat - '0'.toNat)
  else if 'a' ≤ c ∧ c ≤ 'f' then some (c.toNat - 'a'.toNat + 10)
  else if 'A' ≤ c ∧ c ≤ 'F' then some (c.toNat - 'A'.toNat + 10)
  else none

/-- Body of a JSON string, after the opening quote; returns the decoded
content and the remainder after the closing quote. -/
def parseStrAux : Nat → Str → Option (Str × Str)
  | 0, _ => none
  | _ + 1, [] => none
  | f + 1, c :: rest =>
    if c = '"' then some ([], rest)
    else if c = '\\' then
      match rest with
      | 'u' :: h1 :: h2 :: h3 :: h4 :: rest2 =>
        match hexVal? h1, hexVal? h2, hexVal? h3, hexVal? h4 with
        | some a, some b, some c2, some d2 =>
          let n := ((a * 16 + b) * 16 + c2) * 16 + d2
          if 0xD800 ≤ n ∧ n ≤ 0xDBFF then
            match rest2 with
            | '\\' :: 'u' :: g1 :: g2 :: g3 :: g4 :: rest3 =>
              match hexVal? g1, hexVal? g2, hexVal? g3, hexVal? g4 with
              | some e1, some e2, some e3, some e4 =>
                let m := ((e1 * 16 + e2) * 16 + e3) * 16 + e4
                if 0xDC00 ≤ m ∧ m ≤ 0xDFFF then
                  (parseStrAux f rest3).map (fun p =>
                    (Char.ofNat (0x10000 + (n - 0xD800) * 0x400 + (m - 0xDC00)) :: p.1, p.2))
                else (parseStrAux f rest2).map (fun p => (replacementChar :: p.1, p.2))
              | _, _, _, _ => (parseStrAux f rest2).map (fun p => (replacementChar :: p.1, p.2))
            | _ => (parseStrAux f rest2).map (fun p => (replacementChar :: p.1, p.2))
          else if 0xDC00 ≤ n ∧ n ≤ 0xDFFF then
            (parseStrAux f rest2).map (fun p => (replacementChar :: p.1, p.2))
          else (parseStrAux f rest2).map (fun p => (Char.ofNat n :: p.1, p.2))
        | _, _, _, _ => none
      | e :: rest2 =>
        let esc : Option Char :=
          if e = '"' then some '"' else if e = '\\' then some '\\'
          else if e = '/' then some '/' else if e = 'b' then some (Char.ofNat 8)
          else if e = 'f' then some (Char.ofNat 12) else if e = 'n' then some '\n'
          else if e = 'r' then some '\r' else if e = 't' then some '\t' else none
        match esc with
        | some ch => (parseStrAux f rest2).map (fun p => (ch :: p.1, p.2))
        | none => none
      | [] => none
    else if c.toNat < 0x20 then none
    else (parseStrAux f rest).map (fun p => (c :: p.1, p.2))

/-- A JSON number token: `-? int frac? exp?` with strict JSON syntax. -/
def parseNum (s : Str) : Option (Str × Str) :=
  let (sgn, s1) : Str × Str := match s with
    | '-' :: r => (['-'], r)
    | _ => ([], s)
  match s1 with
  | [] => none
  | c :: r =>
    if !(isDigit c) then none
    else
      let (ipart, r1) : Str × Str :=
        if c = '0' then (['0'], r)
        else (c :: r.takeWhile isDigit, r.dropWhile isDigit)
      let (fpart, r2) : Str × Str := match r1 with
        | '.' :: r' =>
          match r'.takeWhile isDigit with
          | [] => ([], r1)
          | ds => ('.' :: ds, r'.dropWhile isDigit)
        | _ => ([], r1)
      if fpart.isEmpty && (match r1 with | '.' :: _ => true | _ => false) then none
      else
        let (ep, r3) : Str × Str := match r2 with
          | 'e' :: r' => expTail 'e' r'
          | 'E' :: r' => expTail 'E' r'
          | _ => ([], r2)
        if ep.isEmpty && (match r2 with | 'e' :: _ => true | 'E' :: _ => true | _ => false) then none
        else some (sgn ++ ipart ++ fpart ++ ep, r3)
where
  expTail (e : Char) (r : Str) : Str × Str :=
    let (sg, r1) : Str × Str := match r with
      | '+' :: r' => (['+'], r')
      | '-' :: r' => (['-'], r')
      | _ => ([], r)
    match r1.takeWhile isDigit with
    | [] => ([], e :: r)
    | ds => (e :: sg ++ ds, r1.dropWhile isDigit)

/-- Parsing mode: a single value, the element loop of an array, or the member
loop of an object (with what is accumulated so far). -/
inductive PMode where
  | val
  | elems (acc : List Json)
  | members (acc : List (Str × Json))

/-- Fueled JSON parser; every recursive call strictly decreases the fuel, so
the definition is structural and evaluates inside the kernel. -/
def parseJ : Nat → PMode → Str → Option (Json × Str)
  | 0, _, _ => none
  | f + 1, PMode.val, s =>
    match s with
    | [] => none
    | c :: rest =>
      if c = Char.ofNat 123 then
        match skipJws rest with
        | c2 :: r2 =>
          if c2 = Char.ofNat 125 then some (Json.obj [], r2)
          else parseJ f (PMode.members []) (c2 :: r2)
        | [] => none
      else if c = '[' then
        match skipJws rest with
        | ']' :: r2 => some (Json.arr [], r2)
        | r2 => parseJ f (PMode.elems []) r2
      else if c = '"' then
        (parseStrAux (rest.length + 1) rest).map (fun p => (Json.str p.1, p.2))
      else if pfx ("true".toList) s then some (Json.bool true, s.drop 4)
      else if pfx ("false".toList) s then some (Json.bool false, s.drop 5)
      else if pfx ("null".toList) s then some (Json.null, s.drop 4)
      else if c = '-' ∨ isDigit c then
        (parseNum s).map (fun p => (Json.num p.1, p.2))
      else none
  | f + 1, PMode.elems acc, s =>
    match parseJ f PMode.val (skipJws s) with
    | none => none
    | some (v, r) =>
      match skipJws r with
      | ',' :: r2 => parseJ f (PMode.elems (acc ++ [v])) r2
      | ']' :: r2 => some (Json.arr (acc ++ [v]), r2)
      | _ => none
  | f + 1, PMode.members acc, s =>
    match skipJws s with
    | '"' :: r =>
      match parseStrAux (r.length + 1) r with
      | none => none
      | some (k, r1) =>
        match skipJws r1 with
        | ':' :: r2 =>
          match parseJ f PMode.val (skipJws r2) with
          | none => none
          | some (v, r3) =>
            match skipJws r3 with
            | ',' :: r4 => parseJ f (PMode.members (acc ++ [(k, v)])) r4
            | c4 :: r4 =>
              if c4 = Char.ofNat 125 then some (Json.obj (acc ++ [(k, v)]), r4)
              else none
            | [] => none
        | _ => none
    | _ => none

/-- `JSON.parse`: a complete JSON text (leading/trailing whitespace allowed). -/
def jsonParse (s : Str) : Option Json :=
  match parseJ (2 * s.length + 4) PMode.val (skipJws s) with
  | some (j, rest) => if (skipJws rest).isEmpty then some j else none
  | none => none

/-- JavaScript property access `j[k]` for the parsed value: only objects have
string-keyed own properties, and with duplicate keys the last one wins, as in
`JSON.parse`. -/
def jsGet (j : Json) (k : Str) : Option Json :=
  match j with
  | Json.obj fields => ((fields.filter (fun p => p.1 == k)).getLast?).map (fun p => p.2)
  | _ => none

/-- Every mantissa digit of the raw numeric token is zero. -/
def jsonNumIsZero (raw : Str) : Bool :=
  (raw.takeWhile (fun c => !(c == 'e') && !(c == 'E'))).all (fun c => !(isDigit c) || c == '0')

/-- JavaScript truthiness of a `JSON.parse` result. -/
def truthy : Json → Bool
  | Json.null => false
  | Json.bool b => b
  | Json.num raw => !(jsonNumIsZero raw)
  | Json.str s => !s.isEmpty
  | Json.arr _ => true
  | Json.obj _ => true

/-- `rawText.trim().replace(/^data:\s*/, "")` from part_001. -/
def stripData (s : Str) : Str :=
  if pfx ("data:".toList) s then (s.drop 5).dropWhile isJsSpace else s

/-- `handlePossibleErrorJSON` from part_001 (lines 18-42): detect an in-band
`error.message` payload.  Returns the message value when the function would
call `onError` and error the controller; the effects are applied at the call
sites in the engine below.  Note the truthiness tests `parsed.error &&
parsed.error.message` from the source. -/
def handlePossibleErrorJSON (rawText : Str) : Option Json :=
  let trimmedText := stripData (trimStr rawText)
  if trimmedText.head? = some (Char.ofNat 123) then
    match jsonParse trimmedText with
    | none => none
    | some parsed =>
      match jsGet parsed ("error".toList) with
      | none => none
      | some e =>
        if truthy e then
          match jsGet e ("message".toList) with
          | none => none
          | some m => if truthy m then some m else none
        else none
  else none

/-! ### The streaming engine

`createSSEStream` from `src/src/streaming-engine.ts` (and, as the `...E`
family, the revision in `src/unnamed/part_001` that adds the error sniffer).

The observable behaviour of one engine instance is modelled as an
`EngineResult`: the ordered trace of handler invocations, the list of texts
enqueued into the outbound stream, and the final state of that stream.
Handlers are independently optional no-ops in the source; the trace records
the invocations the engine performs.  `prepareRequest` and the upstream
reader are the engine's only inputs: a prepared request either fails or
yields the list of byte chunks the reader will deliver, followed by either a
clean end-of-input or a thrown read error. -/

inductive Role where
  | system
  | user
  | assistant
  deriving Repr, DecidableEq

structure Message where
  role : Role
  content : Str

/-- What the engine hands to `onError` as the error argument. -/
inductive ErrVal where
  | prepFail
  | readFail
  | payload (msg : Json)

/-- One handler invocation. -/
inductive Event where
  | esys (m : Message)
  | euser (m : Message)
  | epart (m : Message)
  | edone (m : Message)
  | eerror (e : ErrVal) (m : Message)

/-- Final state of the outbound `ReadableStream`. -/
inductive StreamFate where
  | closed
  | errored
  deriving Repr, DecidableEq

structure EngineResult where
  trace : List Event
  output : List Str
  fate : StreamFate

/-- The engine's accumulator: `fullResponse` plus the observations so far. -/
structure AccSt where
  full : Str
  trace : List Event
  output : List Str

def accInit : AccSt := ⟨[], [], []⟩

/-- The plugin capabilities the read loop uses (`ProviderPlugin`):
`delimiter` (possibly absent) and `parseServerSentEvent`, where `none` models
a `null` return and `some "[DONE]"` is the completion sentinel. -/
structure Plugin where
  delimiter : Option Str
  parseServerSentEvent : Str → Option Str

/-- `plugin.delimiter ?? "\n\n"`. -/
def effDelim (P : Plugin) : Str := P.delimiter.getD ("\n\n".toList)

def doneStr : Str := "[DONE]".toList

/-- How the upstream reader ends after delivering its chunks. -/
inductive ReadEnd where
  | eof
  | fail
  deriving Repr, DecidableEq

/-- Outcome of `plugin.prepareRequest`: a thrown error, or a reader. -/
inductive PrepOutcome where
  | fail
  | ok (chunks : List (List Nat)) (rend : ReadEnd)

/-- `ln && !ln.startsWith(":")` — the filter applied to the trimmed lines of
a frame in the read loop. -/
def keepLine (l : Str) : Bool := !l.isEmpty && !(l.head? == some ':')

/-- Lines of a frame as the loop produces them:
`trimmed.split("\n").map(ln => ln.trim())` then the `keepLine` filter. -/
def surviving (trimmed : Str) : List Str :=
  ((jsSplit ['\n'] trimmed).map trimStr).filter keepLine

/-- The inner line loop of frame processing (engine lines 110-128): feed each
line to the plugin parser, accumulate the extracted text; `none` means the
DONE sentinel was hit (discarding the accumulator). -/
def parseLinesAcc (P : Plugin) : List Str → Str → Option Str
  | [], acc => some acc
  | ln :: rest, acc =>
    match P.parseServerSentEvent ln with
    | none => parseLinesAcc P rest acc
    | some s => if s = doneStr then none else parseLinesAcc P rest (acc ++ s)

/-- The line loop of leftover handling (engine lines 155-174): comment lines
are skipped, but — unlike the in-loop path — empty lines are fed to the
plugin parser. -/
def parseLinesLeft (P : Plugin) : List Str → Str → Option Str
  | [], acc => some acc
  | ln :: rest, acc =>
    if ln.head? == some ':' then parseLinesLeft P rest acc
    else match P.parseServerSentEvent ln with
      | none => parseLinesLeft P rest acc
      | some s => if s = doneStr then none else parseLinesLeft P rest (acc ++ s)

/-- `fullResponse += t; controller.enqueue(encode(t)); onPartial(t)`. -/
def emitText (a : AccSt) (t : Str) : AccSt :=
  { full := a.full ++ t,
    trace := a.trace ++ [Event.epart ⟨Role.assistant, t⟩],
    output := a.output ++ [t] }

/-- Terminating with the DONE sentinel: `onDone(fullResponse)` then
`controller.close()`. -/
def doneResult (a : AccSt) : EngineResult :=
  ⟨a.trace ++ [Event.edone ⟨Role.assistant, a.full⟩], a.output, StreamFate.closed⟩

/-- The per-frame body of the read loop (engine lines 102-144), shared by
both engine revisions after the sniffer. -/
def frameLines (P : Plugin) (a : AccSt) (trimmed : Str) : AccSt ⊕ EngineResult :=
  match parseLinesAcc P (surviving trimmed) [] with
  | none => Sum.inr (doneResult a)
  | some t => Sum.inl (if t.isEmpty then a else emitText a t)

/-- One frame through the loop of `streaming-engine.ts` (no sniffer). -/
def procFrame (P : Plugin) (a : AccSt) (ev : Str) : AccSt ⊕ EngineResult :=
  if (trimStr ev).isEmpty then Sum.inl a
  else frameLines P a (trimStr ev)

/-- One frame through the loop of part_001: sniff for an in-band error
payload first; on a hit, `onError(new Error(msg), empty partial)` then
`controller.error(...)` and stop. -/
def procFrameE (P : Plugin) (a : AccSt) (ev : Str) : AccSt ⊕ EngineResult :=
  if (trimStr ev).isEmpty then Sum.inl a
  else match handlePossibleErrorJSON (trimStr ev) with
    | some msg =>
      Sum.inr ⟨a.trace ++ [Event.eerror (ErrVal.payload msg) ⟨Role.assistant, []⟩],
        a.output, StreamFate.errored⟩
    | none => frameLines P a (trimStr ev)

def procFrames (P : Plugin) : AccSt → List Str → AccSt ⊕ EngineResult
  | a, [] => Sum.inl a
  | a, f :: fs =>
    match procFrame P a f with
    | Sum.inl a' => procFrames P a' fs
    | Sum.inr r => Sum.inr r

def procFramesE (P : Plugin) : AccSt → List Str → AccSt ⊕ EngineResult
  | a, [] => Sum.inl a
  | a, f :: fs =>
    match procFrameE P a f with
    | Sum.inl a' => procFramesE P a' fs
    | Sum.inr r => Sum.inr r

/-- One iteration of the read loop on a received chunk: decode it, append to
the buffer, split on the delimiter, retain the trailing fragment as the new
buffer, and process the complete frames in order. -/
def stepChunk (P : Plugin) (a : AccSt) (dec : DecoderState) (buf : Str) (bytes : List Nat) :
    (AccSt × DecoderState × Str) ⊕ EngineResult :=
  match procFrames P a (jsSplit (effDelim P) (buf ++ (decodeChunk dec bytes).2)).dropLast with
  | Sum.inl a' =>
    Sum.inl (a', (decodeChunk dec bytes).1,
      (jsSplit (effDelim P) (buf ++ (decodeChunk dec bytes).2)).getLast?.getD [])
  | Sum.inr r => Sum.inr r

def stepChunkE (P : Plugin) (a : AccSt) (dec : DecoderState) (buf : Str) (bytes : List Nat) :
    (AccSt × DecoderState × Str) ⊕ EngineResult :=
  match procFramesE P a (jsSplit (effDelim P) (buf ++ (decodeChunk dec bytes).2)).dropLast with
  | Sum.inl a' =>
    Sum.inl (a', (decodeChunk dec bytes).1,
      (jsSplit (effDelim P) (buf ++ (decodeChunk dec bytes).2)).getLast?.getD [])
  | Sum.inr r => Sum.inr r

def runChunks (P : Plugin) : AccSt → DecoderState → Str → List (List Nat) →
    (AccSt × DecoderState × Str) ⊕ EngineResult
  | a, dec, buf, [] => Sum.inl (a, dec, buf)
  | a, dec, buf, c :: cs =>
    match stepChunk P a dec buf c with
    | Sum.inl p => runChunks P p.1 p.2.1 p.2.2 cs
    | Sum.inr r => Sum.inr r

def runChunksE (P : Plugin) : AccSt → DecoderState → Str → List (List Nat) →
    (AccSt × DecoderState × Str) ⊕ EngineResult
  | a, dec, buf, [] => Sum.inl (a, dec, buf)
  | a, dec, buf, c :: cs =>
    match stepChunkE P a dec buf c with
    | Sum.inl p => runChunksE P p.1 p.2.1 p.2.2 cs
    | Sum.inr r => Sum.inr r

/-- The line-loop-and-emit part of leftover handling (engine lines 152-188),
shared by both revisions. -/
def leftoverLines (P : Plugin) (a : AccSt) (leftover : Str) : AccSt ⊕ EngineResult :=
  match parseLinesLeft P ((jsSplit ['\n'] leftover).map trimStr) [] with
  | none => Sum.inr (doneResult a)
  | some t => Sum.inl (if t.isEmpty then a else emitText a t)

/-- Leftover handling of `streaming-engine.ts` (lines 147-189): on `inl` the
engine falls through to the final `onDone`/`close`. -/
def leftoverCore (P : Plugin) (a : AccSt) (buf : Str) : AccSt ⊕ EngineResult :=
  if (trimStr buf).isEmpty then Sum.inl a
  else leftoverLines P a (trimStr buf)

/-- Leftover handling of part_001 (lines 179-223): sniff first. -/
def leftoverCoreE (P : Plugin) (a : AccSt) (buf : Str) : AccSt ⊕ EngineResult :=
  if (trimStr buf).isEmpty then Sum.inl a
  else match handlePossibleErrorJSON (trimStr buf) with
    | some msg =>
      Sum.inr ⟨a.trace ++ [Event.eerror (ErrVal.payload msg) ⟨Role.assistant, []⟩],
        a.output, StreamFate.errored⟩
    | none => leftoverLines P a (trimStr buf)

/-- The read loop plus its aftermath, from a given accumulator: read all
chunks, then on a reader failure run the catch block
(`controller.error; onError(fullResponse)`), on end-of-input run leftover
handling and, unless the sentinel fired there, the final `onDone` + close. -/
def runLoopFrom (P : Plugin) (a0 : AccSt) (chunks : List (List Nat)) (rend : ReadEnd) :
    EngineResult :=
  match runChunks P a0 initDecoder [] chunks with
  | Sum.inr r => r
  | Sum.inl (a, _, buf) =>
    match rend with
    | ReadEnd.fail =>
      ⟨a.trace ++ [Event.eerror ErrVal.readFail ⟨Role.assistant, a.full⟩],
        a.output, StreamFate.errored⟩
    | ReadEnd.eof =>
      match leftoverCore P a buf with
      | Sum.inr r => r
      | Sum.inl a' => doneResult a'

def runLoopFromE (P : Plugin) (a0 : AccSt) (chunks : List (List Nat)) (rend : ReadEnd) :
    EngineResult :=
  match runChunksE P a0 initDecoder [] chunks with
  | Sum.inr r => r
  | Sum.inl (a, _, buf) =>
    match rend with
    | ReadEnd.fail =>
      ⟨a.trace ++ [Event.eerror ErrVal.readFail ⟨Role.assistant, a.full⟩],
        a.output, StreamFate.errored⟩
    | ReadEnd.eof =>
      match leftoverCoreE P a buf with
      | Sum.inr r => r
      | Sum.inl a' => doneResult a'

/-- Events fired between successful preparation and the read loop:
`onSystemMessage` only when a (truthy, hence non-empty) system message was
supplied, then `onUserMessage` unconditionally. -/
def introEvents (systemMessage : Option Str) (userMessage : Str) : List Event :=
  (match systemMessage with
    | some m => if m.isEmpty then [] else [Event.esys ⟨Role.system, m⟩]
    | none => []) ++ [Event.euser ⟨Role.user, userMessage⟩]

/-- `createSSEStream` from `src/src/streaming-engine.ts`.  A preparation
failure calls `onError` with an empty assistant partial and returns an
already-closed empty stream; the call itself never rejects (it always
returns a result). -/
def createSSEStream (P : Plugin) (systemMessage : Option Str) (userMessage : Str)
    (prep : PrepOutcome) : EngineResult :=
  match prep with
  | PrepOutcome.fail =>
    ⟨[Event.eerror ErrVal.prepFail ⟨Role.assistant, []⟩], [], StreamFate.closed⟩
  | PrepOutcome.ok chunks rend =>
    runLoopFrom P ⟨[], introEvents systemMessage userMessage, []⟩ chunks rend

/-- `createSSEStream` from part_001 (with the error sniffer). -/
def createSSEStreamE (P : Plugin) (systemMessage : Option Str) (userMessage : Str)
    (prep : PrepOutcome) : EngineResult :=
  match prep with
  | PrepOutcome.fail =>
    ⟨[Event.eerror ErrVal.prepFail ⟨Role.assistant, []⟩], [], StreamFate.closed⟩
  | PrepOutcome.ok chunks rend =>
    runLoopFromE P ⟨[], introEvents systemMessage userMessage, []⟩ chunks rend

/-! ### The debug gate (`isDebugEnabled`, engine lines 8-12) -/

/-- The `debug` parameter: absent, a plain boolean, or a `DebugOptions`
record whose fields (`all`, `plugin`, `sse`) are each optional booleans. -/
inductive DebugConfig where
  | undef
  | bool (b : Bool)
  | obj (allF pluginF sseF : Option Bool)
  deriving Repr, DecidableEq

/-- `keyof DebugOptions`. -/
inductive DebugCat where
  | allC
  | pluginC
  | sseC
  deriving Repr, DecidableEq

/-- The structured record's field for a category. -/
def catField (allF pluginF sseF : Option Bool) : DebugCat → Option Bool
  | DebugCat.allC => allF
  | DebugCat.pluginC => pluginF
  | DebugCat.sseC => sseF

/-- `isDebugEnabled`: `if (!debug) return false; if (typeof debug ===
"boolean") return debug; return !!debug.all || !!debug[category]` — note an
object (even `\x7b\x7d`) is always truthy. -/
def isDebugEnabled : DebugConfig → DebugCat → Bool
  | DebugConfig.undef, _ => false
  | DebugConfig.bool b, _ => b
  | DebugConfig.obj allF pluginF sseF, cat =>
    allF.getD false || (catField allF pluginF sseF cat).getD false

/-! ### Chunk-boundary invariance machinery -/

theorem procFrames_append (P : Plugin) : ∀ (f1 f2 : List Str) (a : AccSt),
    procFrames P a (f1 ++ f2) =
      match procFrames P a f1 with
      | Sum.inl a' => procFrames P a' f2
      | Sum.inr r => Sum.inr r := by
  intro f1
  induction f1 with
  | nil => intro f2 a; rfl
  | cons f fs ih =>
    intro f2 a
    simp only [List.cons_append, procFrames]
    cases hp : procFrame P a f with
    | inl a' => exact ih f2 a'
    | inr r => rfl

theorem jsSplit_last_nil {d s : Str} (h : jsSplit d s = []) : d = [] ∧ s = [] := by
  by_cases hd : d = []
  · subst hd
    refine ⟨rfl, ?_⟩
    rw [jsSplit_empty_d] at h
    exact List.map_eq_nil_iff.mp h
  · exact absurd h (jsSplit_ne_nil hd s)

/-- The frame/buffer effect of appending decoded text to the buffer and
processing the complete frames (the pure-text core of one loop iteration). -/
def feedText (P : Plugin) (a : AccSt) (buf : Str) (text : Str) : (AccSt × Str) ⊕ EngineResult :=
  match procFrames P a (jsSplit (effDelim P) (buf ++ text)).dropLast with
  | Sum.inl a' => Sum.inl (a', (jsSplit (effDelim P) (buf ++ text)).getLast?.getD [])
  | Sum.inr r => Sum.inr r

theorem stepChunk_eq_feedText (P : Plugin) (a : AccSt) (dec : DecoderState) (buf : Str)
    (bytes : List Nat) :
    stepChunk P a dec buf bytes =
      match feedText P a buf (decodeChunk dec bytes).2 with
      | Sum.inl p => Sum.inl (p.1, (decodeChunk dec bytes).1, p.2)
      | Sum.inr r => Sum.inr r := by
  simp only [stepChunk, feedText]
  cases procFrames P a (jsSplit (effDelim P) (buf ++ (decodeChunk dec bytes).2)).dropLast with
  | inl a' => rfl
  | inr r => rfl

theorem feedText_append (P : Plugin) (a : AccSt) (buf t1 t2 : Str) :
    feedText P a buf (t1 ++ t2) =
      match feedText P a buf t1 with
      | Sum.inl p => feedText P p.1 p.2 t2
      | Sum.inr r => Sum.inr r := by
  have hassoc : buf ++ (t1 ++ t2) = (buf ++ t1) ++ t2 := (List.append_assoc buf t1 t2).symm
  have hsplit : jsSplit (effDelim P) (buf ++ (t1 ++ t2)) =
      (jsSplit (effDelim P) (buf ++ t1)).dropLast ++
        jsSplit (effDelim P) ((jsSplit (effDelim P) (buf ++ t1)).getLast?.getD [] ++ t2) := by
    rw [hassoc]
    exact jsSplit_append (effDelim P) (buf ++ t1) t2
  by_cases hYnil : jsSplit (effDelim P) ((jsSplit (effDelim P) (buf ++ t1)).getLast?.getD [] ++ t2) = []
  · obtain ⟨hdnil, hlt⟩ := jsSplit_last_nil hYnil
    rcases List.append_eq_nil.mp hlt with ⟨hlast, ht2⟩
    have hbt1 : buf ++ t1 = [] := by
      rw [hdnil] at hlast
      exact jsSplit_empty_d_last_nil hlast
    rcases List.append_eq_nil.mp hbt1 with ⟨hbuf, ht1⟩
    subst hbuf ht1 ht2
    simp only [feedText, List.append_nil, List.nil_append, hdnil, jsSplit_empty_d]
    simp [procFrames]
  · have hframes : (jsSplit (effDelim P) (buf ++ (t1 ++ t2))).dropLast =
        (jsSplit (effDelim P) (buf ++ t1)).dropLast ++
          (jsSplit (effDelim P) ((jsSplit (effDelim P) (buf ++ t1)).getLast?.getD [] ++ t2)).dropLast := by
      rw [hsplit]
      exact List.dropLast_append_of_ne_nil _ hYnil
    have hlast : (jsSplit (effDelim P) (buf ++ (t1 ++ t2))).getLast? =
        (jsSplit (effDelim P) ((jsSplit (effDelim P) (buf ++ t1)).getLast?.getD [] ++ t2)).getLast? := by
      rw [hsplit]
      exact List.getLast?_append_of_ne_nil _ hYnil
    simp only [feedText, hframes, hlast, procFrames_append]
    cases hpf : procFrames P a (jsSplit (effDelim P) (buf ++ t1)).dropLast <;> rfl

theorem stepChunk_append (P : Plugin) (a : AccSt) (dec : DecoderState) (buf : Str)
    (x y : List Nat) :
    stepChunk P a dec buf (x ++ y) =
      match stepChunk P a dec buf x with
      | Sum.inl p => stepChunk P p.1 p.2.1 p.2.2 y
      | Sum.inr r => Sum.inr r := by
  rw [stepChunk_eq_feedText, decodeChunk_append]
  simp only []
  rw [feedText_append]
  rw [stepChunk_eq_feedText]
  cases hf1 : feedText P a buf (decodeChunk dec x).2 with
  | inr r => rfl
  | inl p =>
    simp only []
    rw [stepChunk_eq_feedText]

/-- Unfolding a singleton run. -/
theorem runChunks_single (P : Plugin) (a : AccSt) (dec : DecoderState) (buf : Str)
    (c : List Nat) :
    runChunks P a dec buf [c] =
      match stepChunk P a dec buf c with
      | Sum.inl p => Sum.inl p
      | Sum.inr r => Sum.inr r := by
  show (match stepChunk P a dec buf c with
    | Sum.inl p => runChunks P p.1 p.2.1 p.2.2 []
    | Sum.inr r => Sum.inr r) = _
  cases stepChunk P a dec buf c with
  | inl p => rfl
  | inr r => rfl

theorem runChunks_join (P : Plugin) : ∀ (cs : List (List Nat)) (c : List Nat)
    (a : AccSt) (dec : DecoderState) (buf : Str),
    runChunks P a dec buf (c :: cs) = runChunks P a dec buf [c ++ cs.flatten] := by
  intro cs
  induction cs with
  | nil =>
    intro c a dec buf
    simp only [List.flatten_nil, List.append_nil]
  | cons c2 cs ih =>
    intro c a dec buf
    have hflat : (c :: c2 :: cs).flatten = c ++ ((c2 :: cs).flatten) := by simp
    show (match stepChunk P a dec buf c with
      | Sum.inl p => runChunks P p.1 p.2.1 p.2.2 (c2 :: cs)
      | Sum.inr r => Sum.inr r) = _
    rw [runChunks_single, stepChunk_append]
    cases hs : stepChunk P a dec buf c with
    | inr r => rfl
    | inl p =>
      simp only []
      rw [← runChunks_single]
      exact ih c2 p.1 p.2.1 p.2.2

theorem runChunks_eq_single (P : Plugin) (a : AccSt) (cs : List (List Nat)) :
    runChunks P a initDecoder [] cs = runChunks P a initDecoder [] [cs.flatten] := by
  cases cs with
  | nil =>
    show Sum.inl (a, initDecoder, ([] : Str)) = runChunks P a initDecoder [] [[]]
    have hstep : stepChunk P a initDecoder [] [] = Sum.inl (a, initDecoder, ([] : Str)) := by
      simp only [stepChunk, decodeChunk_nil]
      by_cases hd : effDelim P = []
      · rw [hd]
        simp [jsSplit_empty_d, procFrames]
      · rw [jsSplit_eq hd]
        simp [findSub?_nil hd, procFrames]
    rw [runChunks_single, hstep]
  | cons c cs => exact runChunks_join P cs c a initDecoder []

theorem runLoopFrom_eq_single (P : Plugin) (a0 : AccSt) (cs : List (List Nat)) (rend : ReadEnd) :
    runLoopFrom P a0 cs rend = runLoopFrom P a0 [cs.flatten] rend := by
  unfold runLoopFrom
  rw [runChunks_eq_single]

/-! ### Trace-shape invariants: terminal callbacks and the aggregate -/

/-- The contents of the `onPartial` invocations in a trace, in order. -/
def partsOf (tr : List Event) : List Str :=
  tr.filterMap (fun e => match e with
    | Event.epart m => some m.content
    | _ => none)

/-- Terminal callbacks: `onDone` and `onError`. -/
def isTerm : Event → Bool
  | Event.edone _ => true
  | Event.eerror _ _ => true
  | _ => false

/-- Loop invariant of the accumulator: the aggregate equals the
concatenation of all partials reported so far, and no terminal callback has
fired yet. -/
def Inv (a : AccSt) : Prop :=
  a.full = (partsOf a.trace).flatten ∧ ∀ e ∈ a.trace, isTerm e = false

/-- Shape of every finished instance: the trace is some non-terminal events
followed by exactly one terminal event, and if that terminal is `onDone` its
content is the concatenation of all the partials before it. -/
def goodResult (r : EngineResult) : Prop :=
  ∃ pre e, r.trace = pre ++ [e] ∧ isTerm e = true ∧ (∀ x ∈ pre, isTerm x = false) ∧
    ∀ m, e = Event.edone m → m.content = (partsOf pre).flatten

theorem partsOf_append (t1 t2 : List Event) :
    partsOf (t1 ++ t2) = partsOf t1 ++ partsOf t2 :=
  List.filterMap_append t1 t2 _

theorem inv_emit {a : AccSt} (t : Str) (h : Inv a) : Inv (emitText a t) := by
  obtain ⟨h1, h2⟩ := h
  constructor
  · simp only [emitText, partsOf_append, List.flatten_append, ← h1]
    simp [partsOf]
  · intro e he
    simp only [emitText, List.mem_append, List.mem_singleton] at he
    rcases he with he | rfl
    · exact h2 e he
    · rfl

theorem snoc_term_good {a : AccSt} (h : Inv a) {e : Event} (hterm : isTerm e = true)
    (hdone : ∀ m, e = Event.edone m → m.content = a.full) (o : List Str) (f : StreamFate) :
    goodResult ⟨a.trace ++ [e], o, f⟩ :=
  ⟨a.trace, e, rfl, hterm, h.2, fun m hm => (hdone m hm).trans h.1⟩

theorem doneResult_good {a : AccSt} (h : Inv a) : goodResult (doneResult a) := by
  apply snoc_term_good h
  · rfl
  · intro m hm
    injection hm with hm'
    rw [← hm']

/-- `Inv` or `goodResult`, according to which side of the sum we are on. -/
def SumOk : AccSt ⊕ EngineResult → Prop
  | Sum.inl a => Inv a
  | Sum.inr r => goodResult r

theorem frameLines_ok {P : Plugin} {a : AccSt} (trimmed : Str) (h : Inv a) :
    SumOk (frameLines P a trimmed) := by
  unfold frameLines
  cases parseLinesAcc P (surviving trimmed) [] with
  | none => exact doneResult_good h
  | some t =>
    show Inv (if t.isEmpty then a else emitText a t)
    by_cases ht : t.isEmpty
    · simpa [ht] using h
    · simpa [ht] using inv_emit t h

theorem procFrame_ok {P : Plugin} {a : AccSt} (f : Str) (h : Inv a) :
    SumOk (procFrame P a f) := by
  unfold procFrame
  by_cases ht : (trimStr f).isEmpty
  · simpa [ht] using h
  · simpa [ht] using frameLines_ok (trimStr f) h

theorem procFrames_ok {P : Plugin} : ∀ (fs : List Str) {a : AccSt}, Inv a →
    SumOk (procFrames P a fs) := by
  intro fs
  induction fs with
  | nil => intro a h; exact h
  | cons f fs ih =>
    intro a h
    show SumOk (match procFrame P a f with
      | Sum.inl a' => procFrames P a' fs
      | Sum.inr r => Sum.inr r)
    have := procFrame_ok (P := P) f h
    cases hp : procFrame P a f with
    | inl a' =>
      rw [hp] at this
      exact ih this
    | inr r =>
      rw [hp] at this
      exact this

/-- `Inv`/`goodResult` for the read-loop state sum. -/
def StepOk : (AccSt × DecoderState × Str) ⊕ EngineResult → Prop
  | Sum.inl p => Inv p.1
  | Sum.inr r => goodResult r

theorem stepChunk_ok {P : Plugin} {a : AccSt} (dec : DecoderState) (buf : Str)
    (bytes : List Nat) (h : Inv a) : StepOk (stepChunk P a dec buf bytes) := by
  unfold stepChunk
  have := procFrames_ok (P := P)
    (jsSplit (effDelim P) (buf ++ (decodeChunk dec bytes).2)).dropLast h
  cases hp : procFrames P a (jsSplit (effDelim P) (buf ++ (decodeChunk dec bytes).2)).dropLast with
  | inl a' =>
    rw [hp] at this
    exact this
  | inr r =>
    rw [hp] at this
    exact this

theorem runChunks_ok {P : Plugin} : ∀ (cs : List (List Nat)) {a : AccSt}
    (dec : DecoderState) (buf : Str), Inv a → StepOk (runChunks P a dec buf cs) := by
  intro cs
  induction cs with
  | nil => intro a dec buf h; exact h
  | cons c cs ih =>
    intro a dec buf h
    show StepOk (match stepChunk P a dec buf c with
      | Sum.inl p => runChunks P p.1 p.2.1 p.2.2 cs
      | Sum.inr r => Sum.inr r)
    have := stepChunk_ok (P := P) dec buf c h
    cases hs : stepChunk P a dec buf c with
    | inl p =>
      rw [hs] at this
      exact ih p.2.1 p.2.2 this
    | inr r =>
      rw [hs] at this
      exact this

theorem leftoverLines_ok {P : Plugin} {a : AccSt} (leftover : Str) (h : Inv a) :
    SumOk (leftoverLines P a leftover) := by
  unfold leftoverLines
  cases parseLinesLeft P ((jsSplit ['\n'] leftover).map trimStr) [] with
  | none => exact doneResult_good h
  | some t =>
    show Inv (if t.isEmpty then a else emitText a t)
    by_cases ht : t.isEmpty
    · simpa [ht] using h
    · simpa [ht] using inv_emit t h

theorem leftoverCore_ok {P : Plugin} {a : AccSt} (buf : Str) (h : Inv a) :
    SumOk (leftoverCore P a buf) := by
  unfold leftoverCore
  by_cases ht : (trimStr buf).isEmpty
  · simpa [ht] using h
  · simpa [ht] using leftoverLines_ok (trimStr buf) h

theorem runLoopFrom_good {P : Plugin} {a0 : AccSt} (chunks : List (List Nat))
    (rend : ReadEnd) (h : Inv a0) : goodResult (runLoopFrom P a0 chunks rend) := by
  unfold runLoopFrom
  have hrc := runChunks_ok (P := P) chunks initDecoder [] h
  cases hr : runChunks P a0 initDecoder [] chunks with
  | inr r =>
    rw [hr] at hrc
    exact hrc
  | inl p =>
    rw [hr] at hrc
    obtain ⟨a, dec2, buf2⟩ := p
    cases rend with
    | fail =>
      apply snoc_term_good hrc
      · rfl
      · intro m hm
        exact Event.noConfusion hm
    | eof =>
      show goodResult (match leftoverCore P a buf2 with
        | Sum.inr r => r
        | Sum.inl a' => doneResult a')
      have hlo := leftoverCore_ok (P := P) buf2 hrc
      cases hl : leftoverCore P a buf2 with
      | inr r =>
        rw [hl] at hlo
        exact hlo
      | inl a' =>
        rw [hl] at hlo
        exact doneResult_good hlo

theorem introEvents_inv (sys : Option Str) (u : Str) :
    Inv ⟨[], introEvents sys u, []⟩ := by
  constructor
  · cases sys with
    | none => simp [introEvents, partsOf]
    | some m =>
      by_cases hm : m.isEmpty
      · simp [introEvents, partsOf, hm]
      · simp [introEvents, partsOf, hm]
  · intro e he
    unfold introEvents at he
    rcases List.mem_append.mp he with h1 | h2
    · cases sys with
      | none => simp at h1
      | some m =>
        by_cases hm : m.isEmpty
        · simp [hm] at h1
        · simp only [hm, Bool.false_eq_true, if_false, List.mem_singleton] at h1
          subst h1
          rfl
    · rw [List.mem_singleton] at h2
      subst h2
      rfl

theorem createSSEStream_good (P : Plugin) (sys : Option Str) (u : Str) (prep : PrepOutcome) :
    goodResult (createSSEStream P sys u prep) := by
  cases prep with
  | fail =>
    refine ⟨[], Event.eerror ErrVal.prepFail ⟨Role.assistant, []⟩, rfl, rfl, ?_, ?_⟩
    · intro x hx; exact absurd hx (List.not_mem_nil x)
    · intro m hm; exact Event.noConfusion hm
  | ok chunks rend =>
    exact runLoopFrom_good chunks rend (introEvents_inv sys u)

/-- In a list that is non-terminals followed by one final element, any
decomposition around a terminal element must be that final element. -/
theorem uniqueTerm {f : Event → Bool} :
    ∀ (pre' : List Event) (e' : Event) (pre : List Event) (x : Event) (post : List Event),
      (∀ y ∈ pre', f y = false) → f x = true → pre' ++ [e'] = pre ++ x :: post →
      pre = pre' ∧ x = e' ∧ post = [] := by
  intro pre'
  induction pre' with
  | nil =>
    intro e' pre x post hpre hx heq
    cases pre with
    | nil =>
      simp only [List.nil_append] at heq
      injection heq with h1 h2
      exact ⟨rfl, h1.symm, h2.symm⟩
    | cons p ps =>
      simp only [List.nil_append, List.cons_append] at heq
      injection heq with h1 h2
      exact absurd h2.symm (by simp)
  | cons a pre' ih =>
    intro e' pre x post hpre hx heq
    cases pre with
    | nil =>
      simp only [List.cons_append, List.nil_append] at heq
      injection heq with h1 h2
      rw [← h1] at hx
      have hfalse := hpre a (List.mem_cons_self a pre')
      rw [hfalse] at hx
      exact absurd hx (by simp)
    | cons p ps =>
      simp only [List.cons_append] at heq
      injection heq with h1 h2
      have hpre' : ∀ y ∈ pre', f y = false := fun y hy => hpre y (by simp [hy])
      obtain ⟨hps, hx', hpost⟩ := ih e' ps x post hpre' hx h2
      exact ⟨by rw [h1, hps], hx', hpost⟩

/-! ### Buffer invariant machinery (C8) -/

theorem stepChunk_buffer {P : Plugin} (hd : effDelim P ≠ []) {a : AccSt}
    {dec : DecoderState} {buf : Str} {bytes : List Nat}
    {p : AccSt × DecoderState × Str}
    (h : stepChunk P a dec buf bytes = Sum.inl p) : ¬ occursIn (effDelim P) p.2.2 := by
  unfold stepChunk at h
  cases hp : procFrames P a (jsSplit (effDelim P) (buf ++ (decodeChunk dec bytes).2)).dropLast with
  | inl a' =>
    rw [hp] at h
    injection h with h'
    rw [← h']
    exact jsSplit_getLast_no_occur hd _
  | inr r =>
    rw [hp] at h
    exact Sum.noConfusion h

theorem runChunks_buffer {P : Plugin} (hd : effDelim P ≠ []) :
    ∀ (cs : List (List Nat)) {a : AccSt} {dec : DecoderState} {buf : Str}
      {p : AccSt × DecoderState × Str},
      ¬ occursIn (effDelim P) buf →
      runChunks P a dec buf cs = Sum.inl p → ¬ occursIn (effDelim P) p.2.2 := by
  intro cs
  induction cs with
  | nil =>
    intro a dec buf p hbuf h
    injection h with h'
    rw [← h']
    exact hbuf
  | cons c cs ih =>
    intro a dec buf p hbuf h
    have hstep : runChunks P a dec buf (c :: cs) =
        match stepChunk P a dec buf c with
        | Sum.inl q => runChunks P q.1 q.2.1 q.2.2 cs
        | Sum.inr r => Sum.inr r := rfl
    rw [hstep] at h
    cases hs : stepChunk P a dec buf c with
    | inl q =>
      rw [hs] at h
      exact ih (stepChunk_buffer hd hs) h
    | inr r =>
      rw [hs] at h
      exact Sum.noConfusion h

/-! ### The DONE sentinel at the line level (C5, C10) -/

theorem parseLinesAcc_eq_none_iff {P : Plugin} :
    ∀ (lines : List Str) (acc : Str),
      parseLinesAcc P lines acc = none ↔
        ∃ ln ∈ lines, P.parseServerSentEvent ln = some doneStr := by
  intro lines
  induction lines with
  | nil =>
    intro acc
    simp [parseLinesAcc]
  | cons ln rest ih =>
    intro acc
    show (match P.parseServerSentEvent ln with
      | none => parseLinesAcc P rest acc
      | some s => if s = doneStr then none else parseLinesAcc P rest (acc ++ s)) = none ↔ _
    cases hp : P.parseServerSentEvent ln with
    | none =>
      simp only []
      rw [ih]
      constructor
      · rintro ⟨l, hl, hd⟩
        exact ⟨l, List.mem_cons_of_mem _ hl, hd⟩
      · rintro ⟨l, hl, hd⟩
        rcases List.mem_cons.mp hl with rfl | hl'
        · rw [hp] at hd
          exact Option.noConfusion hd
        · exact ⟨l, hl', hd⟩
    | some s =>
      by_cases hs : s = doneStr
      · subst hs
        simp only [if_pos rfl]
        constructor
        · intro _
          exact ⟨ln, List.mem_cons_self ln rest, hp⟩
        · intro _
          rfl
      · simp only [if_neg hs]
        rw [ih]
        constructor
        · rintro ⟨l, hl, hd⟩
          exact ⟨l, List.mem_cons_of_mem _ hl, hd⟩
        · rintro ⟨l, hl, hd⟩
          rcases List.mem_cons.mp hl with rfl | hl'
          · rw [hp] at hd
            injection hd with hd'
            exact absurd hd' hs
          · exact ⟨l, hl', hd⟩

theorem parseLinesLeft_eq_none_iff {P : Plugin} :
    ∀ (lines : List Str) (acc : Str),
      parseLinesLeft P lines acc = none ↔
        ∃ ln ∈ lines, (ln.head? == some ':') = false ∧
          P.parseServerSentEvent ln = some doneStr := by
  intro lines
  induction lines with
  | nil =>
    intro acc
    simp [parseLinesLeft]
  | cons ln rest ih =>
    intro acc
    show (if (ln.head? == some ':') = true then parseLinesLeft P rest acc
      else match P.parseServerSentEvent ln with
        | none => parseLinesLeft P rest acc
        | some s => if s = doneStr then none else parseLinesLeft P rest (acc ++ s)) = none ↔ _
    by_cases hc : (ln.head? == some ':') = true
    · simp only [if_pos hc]
      rw [ih]
      constructor
      · rintro ⟨l, hl, hcl, hd⟩
        exact ⟨l, List.mem_cons_of_mem _ hl, hcl, hd⟩
      · rintro ⟨l, hl, hcl, hd⟩
        rcases List.mem_cons.mp hl with rfl | hl'
        · rw [hc] at hcl
          exact Bool.noConfusion hcl
        · exact ⟨l, hl', hcl, hd⟩
    · simp only [if_neg hc]
      have hcf : (ln.head? == some ':') = false := by
        cases hcc : (ln.head? == some ':') with
        | false => rfl
        | true => exact absurd hcc hc
      cases hp : P.parseServerSentEvent ln with
      | none =>
        simp only []
        rw [ih]
        constructor
        · rintro ⟨l, hl, hcl, hd⟩
          exact ⟨l, List.mem_cons_of_mem _ hl, hcl, hd⟩
        · rintro ⟨l, hl, hcl, hd⟩
          rcases List.mem_cons.mp hl with rfl | hl'
          · rw [hp] at hd
            exact Option.noConfusion hd
          · exact ⟨l, hl', hcl, hd⟩
      | some s =>
        by_cases hs : s = doneStr
        · subst hs
          simp only [if_pos rfl]
          constructor
          · intro _
            exact ⟨ln, List.mem_cons_self ln rest, hcf, hp⟩
          · intro _
            rfl
        · simp only [if_neg hs]
          rw [ih]
          constructor
          · rintro ⟨l, hl, hcl, hd⟩
            exact ⟨l, List.mem_cons_of_mem _ hl, hcl, hd⟩
          · rintro ⟨l, hl, hcl, hd⟩
            rcases List.mem_cons.mp hl with rfl | hl'
            · rw [hp] at hd
              injection hd with hd'
              exact absurd hd' hs
            · exact ⟨l, hl', hcl, hd⟩

theorem surviving_of_nil : surviving ([] : Str) = [] := by rfl

/-! ### Equivalence of the leftover path with the in-loop path (C7) -/

theorem parseLinesLeft_eq_filter {P : Plugin}
    (h : P.parseServerSentEvent [] = none ∨ P.parseServerSentEvent [] = some []) :
    ∀ (lines : List Str) (acc : Str),
      parseLinesLeft P lines acc = parseLinesAcc P (lines.filter keepLine) acc := by
  intro lines
  induction lines with
  | nil => intro acc; rfl
  | cons ln rest ih =>
    intro acc
    by_cases hc : (ln.head? == some ':') = true
    · have hkeep : keepLine ln = false := by
        unfold keepLine
        rw [hc]
        simp
      show parseLinesLeft P (ln :: rest) acc = _
      rw [List.filter_cons_of_neg (by rw [hkeep]; simp)]
      show (if (ln.head? == some ':') = true then parseLinesLeft P rest acc
        else _) = _
      rw [if_pos hc]
      exact ih acc
    · by_cases he : ln.isEmpty
      · have hln : ln = [] := by
          cases ln with
          | nil => rfl
          | cons c cs => exact absurd he (by simp)
        subst hln
        have hkeep : keepLine [] = false := by rfl
        rw [List.filter_cons_of_neg (by rw [hkeep]; simp)]
        show (if (List.head? [] == some ':') = true then parseLinesLeft P rest acc
          else match P.parseServerSentEvent [] with
            | none => parseLinesLeft P rest acc
            | some s => if s = doneStr then none else parseLinesLeft P rest (acc ++ s)) = _
        rw [if_neg (by simp)]
        cases h with
        | inl h0 =>
          rw [h0]
          exact ih acc
        | inr h0 =>
          rw [h0]
          have hnd : ([] : Str) = doneStr → False := by
            intro hcontra
            exact absurd hcontra.symm (by simp [doneStr])
          show (if ([] : Str) = doneStr then none else parseLinesLeft P rest (acc ++ [])) = _
          rw [if_neg hnd, List.append_nil]
          exact ih acc
      · have hkeep : keepLine ln = true := by
          unfold keepLine
          have hcf : (ln.head? == some ':') = false := by
            cases hcc : (ln.head? == some ':') with
            | false => rfl
            | true => exact absurd hcc hc
          rw [hcf]
          cases hee : ln.isEmpty with
          | false => rfl
          | true => exact absurd hee he
        rw [List.filter_cons_of_pos (by rw [hkeep])]
        show (if (ln.head? == some ':') = true then parseLinesLeft P rest acc
          else match P.parseServerSentEvent ln with
            | none => parseLinesLeft P rest acc
            | some s => if s = doneStr then none else parseLinesLeft P rest (acc ++ s)) = _
        rw [if_neg hc]
        show _ = (match P.parseServerSentEvent ln with
          | none => parseLinesAcc P (rest.filter keepLine) acc
          | some s => if s = doneStr then none
            else parseLinesAcc P (rest.filter keepLine) (acc ++ s))
        cases hp : P.parseServerSentEvent ln with
        | none => exact ih acc
        | some s =>
          by_cases hs : s = doneStr
          · simp only [if_pos hs]
          · simp only [if_neg hs]
            exact ih (acc ++ s)

/-! ### Concrete fixtures for witnesses -/

/-- Bytes of an ASCII string, as a reader would deliver them. -/
def asciiBytes (s : String) : List Nat := s.toList.map Char.toNat

/-- A plugin in the style of the repository's `MockPlugin`: `data: `-prefixed
lines carry their payload, `data: [DONE]` is the sentinel. -/
def wPlug : Plugin :=
  ⟨some ("\n\n".toList), fun l =>
    if pfx ("data: ".toList) l then
      (if l.drop 6 = doneStr then some doneStr else some (l.drop 6))
    else none⟩

/-- A plugin whose parser returns content for the empty line (possible under
the plugin contract, which only restricts throwing). -/
def c7Plug : Plugin := ⟨none, fun l => if l.isEmpty then some ("X".toList) else none⟩

/-- A plugin that extracts fixed text from one line and the sentinel from
another. -/
def w5Plug : Plugin :=
  ⟨some ("\n\n".toList), fun l =>
    if l = ("data: A".toList) then some ("AAA".toList)
    else if l = ("data: done".toList) then some doneStr
    else none⟩

/-- A plugin that never extracts anything. -/
def w8Plug : Plugin := ⟨none, fun _ => none⟩

/-- The plugin of the part_001 failing run: one recognised line carrying
`Hello`. -/
def bugPlug : Plugin :=
  ⟨some ("\n\n".toList), fun l => if l = ("data: hi".toList) then some ("Hello".toList) else none⟩

/-- Projection used to separate the two sides of the C7 counterexample. -/
def sumFull : AccSt ⊕ EngineResult → Str
  | Sum.inl a => a.full
  | Sum.inr _ => []

/-! ### The claims -/

/-- C1: for every engine instance whose trace contains an `onDone`
invocation (in particular every stream whose framed events end in a line the
plugin maps to the DONE sentinel), the content passed to `onDone` equals the
concatenation, in arrival order, of the contents of every `onPartial` call
made before it. -/
theorem onDone_content_eq_join_of_partials (P : Plugin) (sys : Option Str) (u : Str)
    (prep : PrepOutcome) (pre post : List Event) (m : Message)
    (h : (createSSEStream P sys u prep).trace = pre ++ Event.edone m :: post) :
    m.content = (partsOf pre).flatten := by
  obtain ⟨pre', e', htr, hterm, hpre, hdone⟩ := createSSEStream_good P sys u prep
  have heq : pre' ++ [e'] = pre ++ Event.edone m :: post := htr.symm.trans h
  obtain ⟨hpre_eq, he, hpost⟩ :=
    uniqueTerm (f := isTerm) pre' e' pre (Event.edone m) post hpre rfl heq
  subst hpre_eq
  rw [← he] at hdone
  exact hdone m rfl

/-- Witness for C1 at the repository's own test scenario: two `data:` frames
then `data: [DONE]`; `onDone` carries the concatenation of the two partials. -/
theorem onDone_content_witness :
    ("Helloworld!".toList : Str) =
      (partsOf [Event.euser ⟨Role.user, "u".toList⟩,
        Event.epart ⟨Role.assistant, "Hello".toList⟩,
        Event.epart ⟨Role.assistant, "world!".toList⟩]).flatten :=
  onDone_content_eq_join_of_partials wPlug none ("u".toList)
    (PrepOutcome.ok [asciiBytes "data: Hello\n\ndata: world!\n\ndata: [DONE]\n\n"] ReadEnd.eof)
    [Event.euser ⟨Role.user, "u".toList⟩, Event.epart ⟨Role.assistant, "Hello".toList⟩,
      Event.epart ⟨Role.assistant, "world!".toList⟩] []
    ⟨Role.assistant, "Helloworld!".toList⟩ (by rfl)

/-- C2 (code bug): in part_001, a frame whose JSON carries a truthy
`error.message` makes the engine invoke `onError` exactly once and error the
outbound stream with no further processing — but the `partialSoFar` message
passed to `onError` has content `""`, not the aggregate accumulated so far
(`"Hello"` here), contradicting both the spec and the documentation of
`onError` in `streaming-types.ts`.  This theorem evaluates the engine at the
failing input. -/
theorem payload_error_drops_aggregate :
    createSSEStreamE bugPlug none ("u".toList)
      (PrepOutcome.ok
        [asciiBytes "data: hi\n\n\x7b\"error\":\x7b\"message\":\"boom\"\x7d\x7d\n\n"]
        ReadEnd.eof) =
    ⟨[Event.euser ⟨Role.user, "u".toList⟩,
      Event.epart ⟨Role.assistant, "Hello".toList⟩,
      Event.eerror (ErrVal.payload (Json.str ("boom".toList))) ⟨Role.assistant, []⟩],
     ["Hello".toList], StreamFate.errored⟩ := by rfl

/-- C3: delivering the same logical byte sequence in arbitrary chunks —
including splits inside a multi-byte character (the decoder state is threaded
across chunks), inside the delimiter, or inside a line — produces exactly the
same engine result (trace, outbound texts, stream fate) as delivering it as a
single chunk. -/
theorem chunk_boundary_invariance (P : Plugin) (sys : Option Str) (u : Str)
    (cs : List (List Nat)) (rend : ReadEnd) :
    createSSEStream P sys u (PrepOutcome.ok cs rend) =
      createSSEStream P sys u (PrepOutcome.ok [cs.flatten] rend) := by
  show runLoopFrom P _ cs rend = runLoopFrom P _ [cs.flatten] rend
  exact runLoopFrom_eq_single P _ cs rend

/-- C4: for every engine instance — any plugin behaviour, preparation
failure, read failure, DONE sentinel or plain end-of-input — exactly one
terminal callback (`onDone` or `onError`) fires: the trace is a list of
non-terminal events followed by exactly one terminal event. -/
theorem exactly_one_terminal_callback (P : Plugin) (sys : Option Str) (u : Str)
    (prep : PrepOutcome) :
    ∃ pre e, (createSSEStream P sys u prep).trace = pre ++ [e] ∧ isTerm e = true ∧
      ∀ x ∈ pre, isTerm x = false := by
  obtain ⟨pre, e, h1, h2, h3, _⟩ := createSSEStream_good P sys u prep
  exact ⟨pre, e, h1, h2, h3⟩

/-- C5: if any surviving line of a frame parses to the DONE sentinel, the
engine immediately fires `onDone` with the aggregate as it was before the
frame, closes the outbound stream and terminates: text parsed from earlier
lines of the same frame appears in neither the `onDone` content, nor any
`onPartial`, nor the outbound stream, and the remaining frames are not
processed. -/
theorem done_sentinel_discards_frame_text (P : Plugin) (a : AccSt) (f : Str)
    (fs : List Str) (ln : Str) (hmem : ln ∈ surviving (trimStr f))
    (hdone : P.parseServerSentEvent ln = some doneStr) :
    procFrames P a (f :: fs) =
      Sum.inr ⟨a.trace ++ [Event.edone ⟨Role.assistant, a.full⟩], a.output,
        StreamFate.closed⟩ := by
  have hne : (trimStr f).isEmpty = false := by
    cases htt : trimStr f with
    | nil =>
      rw [htt, surviving_of_nil] at hmem
      exact absurd hmem (List.not_mem_nil ln)
    | cons c cs => rfl
  have hnone : parseLinesAcc P (surviving (trimStr f)) [] = none :=
    (parseLinesAcc_eq_none_iff _ _).mpr ⟨ln, hmem, hdone⟩
  have hpf : procFrame P a f = Sum.inr (doneResult a) := by
    unfold procFrame
    rw [if_neg (by rw [hne]; simp)]
    unfold frameLines
    rw [hnone]
  show (match procFrame P a f with
    | Sum.inl a' => procFrames P a' fs
    | Sum.inr r => Sum.inr r) = _
  rw [hpf]
  rfl

/-- Witness for C5: the first frame parses `AAA` from its first line and the
sentinel from its second; the result discards `AAA` (the `onDone` content is
the prior aggregate, here empty), enqueues nothing, and never reaches the
second frame. -/
theorem done_sentinel_discards_witness :
    procFrames w5Plug accInit [("data: A\ndata: done".toList), ("data: B".toList)] =
      Sum.inr ⟨[Event.edone ⟨Role.assistant, []⟩], [], StreamFate.closed⟩ :=
  done_sentinel_discards_frame_text w5Plug accInit ("data: A\ndata: done".toList)
    [("data: B".toList)] ("data: done".toList) (by decide) (by rfl)

/-- C6: when `prepareRequest` throws, `createSSEStream` itself still returns
(the model is a total function): it invokes `onError` once with an
empty-content assistant partial and yields an already-closed — not errored —
outbound stream with no bytes, and no `onDone` or `onPartial` ever fires. -/
theorem prepare_failure_behavior (P : Plugin) (sys : Option Str) (u : Str) :
    createSSEStream P sys u PrepOutcome.fail =
      ⟨[Event.eerror ErrVal.prepFail ⟨Role.assistant, []⟩], [], StreamFate.closed⟩ ∧
    (createSSEStream P sys u PrepOutcome.fail).output = [] ∧
    (createSSEStream P sys u PrepOutcome.fail).fate = StreamFate.closed ∧
    partsOf (createSSEStream P sys u PrepOutcome.fail).trace = [] ∧
    ∀ m, Event.edone m ∉ (createSSEStream P sys u PrepOutcome.fail).trace := by
  refine ⟨rfl, rfl, rfl, rfl, ?_⟩
  intro m hm
  simp only [createSSEStream, List.mem_singleton] at hm
  exact Event.noConfusion hm

/-- C7 counterexample: the leftover path does not discard empty lines — it
feeds them to the plugin parser (only comment lines are skipped), so with a
parser that returns content for the empty line, processing the residual text
`"a\n\nb"` differs from processing the same text as one in-loop frame. -/
theorem leftover_path_differs_on_empty_line :
    leftoverCore c7Plug accInit ("a\n\nb".toList) ≠
      procFrame c7Plug accInit ("a\n\nb".toList) := by
  intro h
  have h2 := congrArg sumFull h
  have hl : sumFull (leftoverCore c7Plug accInit ("a\n\nb".toList)) = "X".toList := by rfl
  have hr : sumFull (procFrame c7Plug accInit ("a\n\nb".toList)) = [] := by rfl
  rw [hl, hr] at h2
  exact absurd h2 (by decide)

/-- C7 (amended): the leftover path produces exactly the same effects as the
in-loop frame path on the same text, provided the plugin parser yields no
content for the empty line (`null` or `""`); without that proviso the paths
differ because the leftover path passes empty lines to the parser. -/
theorem leftover_equiv_when_empty_line_inert (P : Plugin) (a : AccSt) (text : Str)
    (h : P.parseServerSentEvent [] = none ∨ P.parseServerSentEvent [] = some []) :
    leftoverCore P a text = procFrame P a text := by
  unfold leftoverCore procFrame
  by_cases ht : (trimStr text).isEmpty
  · rw [if_pos ht, if_pos ht]
  · rw [if_neg ht, if_neg ht]
    unfold leftoverLines frameLines surviving
    rw [parseLinesLeft_eq_filter h]

/-- Witness for C7's amended equivalence at a concrete plugin whose parser
returns `null` on the empty line. -/
theorem leftover_equiv_witness :
    leftoverCore wPlug accInit ("x\n\ny".toList) = procFrame wPlug accInit ("x\n\ny".toList) :=
  leftover_equiv_when_empty_line_inert wPlug accInit ("x\n\ny".toList) (Or.inl rfl)

/-- C8: at every point where the read loop awaits the next chunk (i.e. after
any chunk list, which covers every prefix of a longer delivery) and at loop
exit, the retained buffer contains no occurrence of the (non-empty) effective
delimiter: every complete delimiter-terminated frame has been extracted and
processed, and only the trailing fragment is retained. -/
theorem buffer_no_complete_frame (P : Plugin) (hd : effDelim P ≠ []) (a0 : AccSt)
    (chunks : List (List Nat)) (p : AccSt × DecoderState × Str)
    (h : runChunks P a0 initDecoder [] chunks = Sum.inl p) :
    ¬ occursIn (effDelim P) p.2.2 := by
  apply runChunks_buffer hd chunks _ h
  intro hocc
  rw [occursIn_nil_iff] at hocc
  exact hd hocc

/-- Witness for C8: after one chunk whose text is `data: hi\n\nxyz`, the
complete frame has been consumed and the buffer `xyz` holds no delimiter. -/
theorem buffer_no_complete_frame_witness :
    ¬ occursIn (effDelim w8Plug) ("xyz".toList) :=
  buffer_no_complete_frame w8Plug (by decide) accInit [asciiBytes "data: hi\n\nxyz"]
    (accInit, initDecoder, "xyz".toList) (by rfl)

/-- C9: the debug gate returns `false` when the configuration is absent
(and `false` itself is covered by the boolean case); a plain boolean applies
to every category; a structured configuration yields `all OR the category's
flag`, so `all = true` forces every category on regardless of the individual
flags. -/
theorem debug_gate_spec :
    (∀ cat, isDebugEnabled DebugConfig.undef cat = false) ∧
    (∀ b cat, isDebugEnabled (DebugConfig.bool b) cat = b) ∧
    (∀ al pl ss cat, isDebugEnabled (DebugConfig.obj al pl ss) cat =
      (al.getD false || (catField al pl ss cat).getD false)) ∧
    (∀ pl ss cat, isDebugEnabled (DebugConfig.obj (some true) pl ss) cat = true) :=
  ⟨fun _ => rfl, fun _ _ => rfl, fun _ _ _ _ => rfl, fun _ _ _ => rfl⟩

/-- C10: the completion sentinel is in-band: a frame finalizes the stream if
and only if some surviving line is parsed by the plugin to the exact string
`"[DONE]"` — even when the plugin meant that string as ordinary content —
and likewise on the leftover path (where the surviving lines are the trimmed
lines that are not comments, the empty-line filter being absent there). -/
theorem done_token_indistinguishable (P : Plugin) (a : AccSt) (f : Str) :
    (procFrame P a f = Sum.inr (doneResult a) ↔
      ∃ ln ∈ surviving (trimStr f), P.parseServerSentEvent ln = some doneStr) ∧
    (leftoverCore P a f = Sum.inr (doneResult a) ↔
      (trimStr f).isEmpty = false ∧
        ∃ ln ∈ (jsSplit ['\n'] (trimStr f)).map trimStr,
          (ln.head? == some ':') = false ∧ P.parseServerSentEvent ln = some doneStr) := by
  constructor
  · by_cases ht : (trimStr f).isEmpty
    · have hnil : trimStr f = [] := by
        cases htt : trimStr f with
        | nil => rfl
        | cons c cs => rw [htt] at ht; exact absurd ht (by simp)
      constructor
      · intro hr
        unfold procFrame at hr
        rw [if_pos ht] at hr
        exact Sum.noConfusion hr
      · rintro ⟨ln, hln, _⟩
        rw [hnil, surviving_of_nil] at hln
        exact absurd hln (List.not_mem_nil ln)
    · unfold procFrame frameLines
      rw [if_neg ht]
      cases hp : parseLinesAcc P (surviving (trimStr f)) [] with
      | none =>
        constructor
        · intro _
          exact (parseLinesAcc_eq_none_iff _ _).mp hp
        · intro _
          rfl
      | some t =>
        constructor
        · intro hr
          exact Sum.noConfusion hr
        · intro hex
          have hcontra := (parseLinesAcc_eq_none_iff (P := P) (surviving (trimStr f)) []).mpr hex
          rw [hp] at hcontra
          exact Option.noConfusion hcontra
  · by_cases ht : (trimStr f).isEmpty
    · constructor
      · intro hr
        unfold leftoverCore at hr
        rw [if_pos ht] at hr
        exact Sum.noConfusion hr
      · rintro ⟨hfalse, _⟩
        rw [ht] at hfalse
        exact Bool.noConfusion hfalse
    · have htf : (trimStr f).isEmpty = false := by
        cases htt : (trimStr f).isEmpty with
        | false => rfl
        | true => exact absurd htt ht
      unfold leftoverCore leftoverLines
      rw [if_neg ht]
      cases hp : parseLinesLeft P ((jsSplit ['\n'] (trimStr f)).map trimStr) [] with
      | none =>
        constructor
        · intro _
          exact ⟨htf, (parseLinesLeft_eq_none_iff _ _).mp hp⟩
        · intro _
          rfl
      | some t =>
        constructor
        · intro hr
          exact Sum.noConfusion hr
        · rintro ⟨_, hex⟩
          have hcontra :=
            (parseLinesLeft_eq_none_iff (P := P) ((jsSplit ['\n'] (trimStr f)).map trimStr) []).mpr hex
          rw [hp] at hcontra
          exact Option.noConfusion hcontra

end SSE
